import Mathlib

/-!
Verification of the replay-buffer core of `src/agents/memory.py`
(classes `RingBuffer` and `ReplayBuffer`, and the n-step TD lookahead).

The Python code is shallowly embedded: numpy arrays of per-field values
become lists, the mutable objects become immutable records with explicit
state passing, and exceptions become `Option`/explicit result types.
Numeric reward values are embedded as rationals.
-/

/-- Embedding of `RingBuffer` from `src/agents/memory.py`:
`maxlen`, `start`, `length` are the three scalar attributes, and `data`
is the backing storage (`np.zeros((maxlen, *shape))` becomes a list of
length `maxlen` filled with a zero element). -/
structure RingBuffer (α : Type) where
  maxlen : Nat
  start : Nat
  length : Nat
  data : List α
  deriving Repr, DecidableEq

namespace RingBuffer

/-- `RingBuffer.__init__`: zero-filled storage, `start = 0`, `length = 0`. -/
def init (maxlen : Nat) (z : α) : RingBuffer α :=
  { maxlen := maxlen, start := 0, length := 0, data := List.replicate maxlen z }

/-- `RingBuffer.__getitem__`: raises (here: `none`) when `idx < 0` or
`idx >= length`; otherwise reads `data[(start + idx) % maxlen]`.
The Python parameter is a signed `int`, hence `Int` here. -/
def getIdx (rb : RingBuffer α) (idx : Int) : Option α :=
  if idx < 0 ∨ (rb.length : Int) ≤ idx then none
  else rb.data[(rb.start + idx.toNat) % rb.maxlen]?

/-- `RingBuffer.get_batch`: `self.data[(self.start + idxs) % self.maxlen]`.
There is no bound check against `length`; each physical read is
`(start + idx) % maxlen`, always inside the storage when `maxlen > 0`. -/
def get_batch (rb : RingBuffer α) (idxs : List Nat) : List (Option α) :=
  idxs.map (fun i => rb.data[(rb.start + i) % rb.maxlen]?)

/-- `RingBuffer.append`: if `length < maxlen`, grow and write at
`(start + length - 1) % maxlen` (with the incremented length); if
`length == maxlen`, advance `start` and overwrite; the final defensive
branch (`length > maxlen`) raises `RuntimeError`, embedded as `none`. -/
def append (rb : RingBuffer α) (v : α) : Option (RingBuffer α) :=
  if rb.length < rb.maxlen then
    let length := rb.length + 1
    some { rb with length := length,
                   data := rb.data.set ((rb.start + length - 1) % rb.maxlen) v }
  else if rb.length = rb.maxlen then
    let start := (rb.start + 1) % rb.maxlen
    some { rb with start := start,
                   data := rb.data.set ((start + rb.length - 1) % rb.maxlen) v }
  else none

/-- Appending a whole sequence of values, left to right, propagating the
failure of any single `append`. -/
def appendAll (rb : RingBuffer α) (vs : List α) : Option (RingBuffer α) :=
  match vs with
  | [] => some rb
  | v :: rest =>
    match rb.append v with
    | none => none
    | some rb2 => rb2.appendAll rest

end RingBuffer

/-- Embedding of a numpy-typed Python value as seen by
`ReplayBuffer.append`: either an actual `np.ndarray` payload or any other
object (which the code rejects with `TypeError`). -/
inductive NpVal (α : Type) where
  | nd : α → NpVal α
  | other : NpVal α
  deriving Repr, DecidableEq

/-- Embedding of `ReplayBuffer` from `src/agents/memory.py`: a capacity and
one named `RingBuffer` per field, kept in Python dict insertion order. -/
structure ReplayBuffer (α : Type) where
  capacity : Nat
  ring_buffers : List (String × RingBuffer α)
  deriving Repr, DecidableEq

/-- The exception raised while iterating over the fields inside
`ReplayBuffer.append`: a missing key (`KeyError`), a non-array value
(`TypeError(k)`), or the ring's defensive `RuntimeError`. -/
inductive FieldErr where
  | keyErr : FieldErr
  | typeErr : String → FieldErr
  | runtimeErr : FieldErr
  deriving Repr, DecidableEq

/-- The loop body of `ReplayBuffer.append`: walk the field rings in order;
for each, look the field up in the transition, raise `TypeError` on a
non-array value, and append. On an error the loop stops: rings processed
earlier keep their new state, the current and later rings are untouched —
exactly the in-place mutation behaviour of the Python loop. -/
def appendFields (tr : List (String × NpVal α)) :
    List (String × RingBuffer α) → List (String × RingBuffer α) × Option FieldErr
  | [] => ([], none)
  | (k, r) :: rest =>
    match tr.lookup k with
    | none => ((k, r) :: rest, some FieldErr.keyErr)
    | some NpVal.other => ((k, r) :: rest, some (FieldErr.typeErr k))
    | some (NpVal.nd v) =>
      match r.append v with
      | none => ((k, r) :: rest, some FieldErr.runtimeErr)
      | some r2 =>
        ((k, r2) :: (appendFields tr rest).1, (appendFields tr rest).2)

/-- Result of `ReplayBuffer.append`: the Python method either returns
normally or raises; in every case the (possibly partially mutated) store
state is carried along, since the Python object survives the exception. -/
inductive AppendResult (α : Type) where
  | ok : ReplayBuffer α → AppendResult α
  | schemaMismatch : ReplayBuffer α → AppendResult α
  | keyError : ReplayBuffer α → AppendResult α
  | typeError : String → ReplayBuffer α → AppendResult α
  | runtimeError : ReplayBuffer α → AppendResult α
  deriving Repr, DecidableEq

namespace ReplayBuffer

/-- `ReplayBuffer.__init__`: one ring per schema field, all sharing the
capacity (the per-field shapes only size the numpy arrays). -/
def init (capacity : Nat) (names : List String) (z : α) : ReplayBuffer α :=
  { capacity := capacity,
    ring_buffers := names.map (fun n => (n, RingBuffer.init capacity z)) }

/-- `ReplayBuffer.append`: the leading `assert` compares the two key sets
(no mutation has happened yet when it fires); then the loop of
`appendFields` runs over every ring. -/
def append (rb : ReplayBuffer α) (tr : List (String × NpVal α)) : AppendResult α :=
  if (rb.ring_buffers.map Prod.fst).toFinset = (tr.map Prod.fst).toFinset then
    match appendFields tr rb.ring_buffers with
    | (bufs, none) => AppendResult.ok { rb with ring_buffers := bufs }
    | (bufs, some FieldErr.keyErr) => AppendResult.keyError { rb with ring_buffers := bufs }
    | (bufs, some (FieldErr.typeErr k)) => AppendResult.typeError k { rb with ring_buffers := bufs }
    | (bufs, some FieldErr.runtimeErr) => AppendResult.runtimeError { rb with ring_buffers := bufs }
  else AppendResult.schemaMismatch rb

/-- A sequence of `append` calls, all of which return normally. -/
def appendAllOk (rb : ReplayBuffer α) :
    List (List (String × NpVal α)) → Option (ReplayBuffer α)
  | [] => some rb
  | t :: ts =>
    match rb.append t with
    | AppendResult.ok rb2 => rb2.appendAllOk ts
    | _ => none

/-- `ReplayBuffer.num_entries`: `len(self.ring_buffers["obs0"])`; `none`
models the `KeyError` when no field is called `"obs0"`. -/
def num_entries (rb : ReplayBuffer α) : Option Nat :=
  (rb.ring_buffers.lookup "obs0").map (fun r => r.length)

/-- `ReplayBuffer.latest_entry_idx`:
`(pick.start + pick.length - 1) % pick.maxlen` on the `"obs0"` ring,
computed over `Int` to reproduce Python's nonnegative `%` on the
`length = 0` edge. -/
def latest_entry_idx (rb : ReplayBuffer α) : Option Nat :=
  (rb.ring_buffers.lookup "obs0").map
    (fun r => (((r.start : Int) + r.length - 1) % (r.maxlen : Int)).toNat)

end ReplayBuffer

/-- Modelled from the spec: the source imports `discount` from
`helpers/math_util.py`, a file that is not part of the sources here; the
spec (§4.4 step 5) defines the quantity actually used —
`discount(rews, gamma)[0]` — as the discounted sum Σ_k gamma^k * rews_k,
computed by the standard backward recurrence. -/
def discountFirst (rews : List ℚ) (gamma : ℚ) : ℚ :=
  match rews with
  | [] => 0
  | r :: rest => r + gamma * discountFirst rest gamma

/-- `la_end_idx = min(idx + n, self.num_entries) - 1` in
`ReplayBuffer.lookahead`. -/
def laEndIdx (numEntries idx n : Nat) : Nat :=
  min (idx + n) numEntries - 1

/-- `la_idxs = np.array(range(idx, la_end_idx + 1))` in
`ReplayBuffer.lookahead`. -/
def laIdxs (numEntries idx n : Nat) : List Nat :=
  List.range' idx (laEndIdx numEntries idx n + 1 - idx)

/-- The per-index entries of the lookahead batch that carry the
algorithmic content: the discounted reward sum (`rews`), the trim flag
stored as the terminal flag (`dones1`), and the effective length
(`td_len`). -/
structure LaStep where
  rews : ℚ
  dones1 : Bool
  td_len : Nat
  deriving Repr, DecidableEq

/-- The gathered window of terminal flags,
`dones = la_transitions["dones1"]`: the logical store values (terminal
flags embedded as `Bool` for the float values 1.0/0.0) at the window
indices. -/
def laDones (dones : List Bool) (numEntries idx n : Nat) : List Bool :=
  (laIdxs numEntries idx n).map (fun i => dones.getD i false)

/-- `ep_end_idx = idx + list(dones).index(1.0) if 1.0 in dones else
la_end_idx` in `ReplayBuffer.lookahead`: the episode cut is the window
offset of the first true terminal flag, if any. -/
def epEndIdx (dones : List Bool) (numEntries idx n : Nat) : Nat :=
  match (laDones dones numEntries idx n).findIdx? (fun d => d) with
  | some j => idx + j
  | none => laEndIdx numEntries idx n

/-- The body of the per-index loop of `ReplayBuffer.lookahead`, acting on
the logical store content: `dones` and `rews` are the logical sequences
held by the `"dones1"` and `"rews"` rings, `numEntries` the common ring
length. The trim flag is `0.0 if ep_end_idx == la_end_idx else 1.0` and
is stored as the output `dones1`; `td_len = ep_end_idx - idx + 1`; the
reward output is `discount(la_rews[:td_len], gamma)[0]`. -/
def lookaheadStep (dones : List Bool) (rews : List ℚ) (numEntries idx n : Nat)
    (gamma : ℚ) : LaStep :=
  { rews := discountFirst
      (((laIdxs numEntries idx n).map (fun i => rews.getD i 0)).take
        (epEndIdx dones numEntries idx n - idx + 1)) gamma
    dones1 := epEndIdx dones numEntries idx n != laEndIdx numEntries idx n
    td_len := epEndIdx dones numEntries idx n - idx + 1 }

/-- The state invariant tying a `RingBuffer` to the full sequence `vs` of
values appended to it since `init c z`: sizes and cursor values are
determined by `vs.length`, and the logical content is exactly the suffix
of the last `min vs.length c` appended values. -/
structure Reached (c : Nat) (vs : List α) (rb : RingBuffer α) : Prop where
  maxlen_eq : rb.maxlen = c
  data_len : rb.data.length = c
  start_lt : rb.start < c
  start_eq : rb.start = if vs.length < c then 0 else vs.length % c
  len_eq : rb.length = min vs.length c
  content : ∀ i, i < rb.length →
    rb.data[(rb.start + i) % c]? = vs[vs.length - rb.length + i]?

namespace RingBuffer

theorem mod_add_cancel {c s a b : Nat} (ha : a < c) (hb : b < c)
    (h : (s + a) % c = (s + b) % c) : a = b := by
  have h1 : s + a ≡ s + b [MOD c] := h
  have h2 : a ≡ b [MOD c] := Nat.ModEq.add_left_cancel (Nat.ModEq.refl s) h1
  have h3 : a % c = b % c := h2
  rwa [Nat.mod_eq_of_lt ha, Nat.mod_eq_of_lt hb] at h3

theorem appendAll_concat (rb : RingBuffer α) (vs : List α) (v : α) :
    rb.appendAll (vs ++ [v]) = (rb.appendAll vs).bind (fun r => r.append v) := by
  induction vs generalizing rb with
  | nil =>
    simp only [List.nil_append, appendAll]
    cases h : rb.append v <;> simp [appendAll, h]
  | cons w ws ih =>
    simp only [List.cons_append, appendAll]
    cases h : rb.append w with
    | none => simp
    | some rb2 => simpa using ih rb2

theorem reached_init {c : Nat} (hc : 0 < c) (z : α) :
    Reached c [] (RingBuffer.init c z) := by
  refine ⟨rfl, by simp [init], hc, by simp [init, hc], by simp [init], ?_⟩
  intro i hi
  simp [init] at hi

theorem append_step {c : Nat} {vs : List α} {v : α} {rb : RingBuffer α}
    (hc : 0 < c) (h : Reached c vs rb) :
    ∃ rb2, rb.append v = some rb2 ∧ Reached c (vs ++ [v]) rb2 := by
  obtain ⟨hm, hd, hsl, hse, hl, hco⟩ := h
  by_cases hlt : rb.length < rb.maxlen
  · -- growth branch: the store still has free space
    have hlc : rb.length < c := hm ▸ hlt
    have hvlt : vs.length < c := by
      by_contra hge
      push_neg at hge
      rw [hl, Nat.min_eq_right hge] at hlc
      exact lt_irrefl _ hlc
    have hlv : rb.length = vs.length := by
      rw [hl, Nat.min_eq_left (le_of_lt hvlt)]
    have hs0 : rb.start = 0 := by rw [hse, if_pos hvlt]
    refine ⟨{ rb with length := rb.length + 1
                      data := rb.data.set ((rb.start + (rb.length + 1) - 1) % rb.maxlen) v },
            by unfold append; rw [if_pos hlt], ?_⟩
    have hidx : rb.start + (rb.length + 1) - 1 = rb.start + rb.length := by omega
    refine ⟨hm, by simp [List.length_set, hd], hsl, ?_, ?_, ?_⟩
    · show rb.start = if (vs ++ [v]).length < c then 0 else (vs ++ [v]).length % c
      rw [hs0, List.length_append, List.length_cons, List.length_nil]
      by_cases h2 : vs.length + 1 < c
      · rw [if_pos h2]
      · have h3 : vs.length + 1 = c := by omega
        rw [if_neg h2, h3, Nat.mod_self]
    · show rb.length + 1 = min (vs ++ [v]).length c
      rw [List.length_append, List.length_cons, List.length_nil]
      omega
    · intro i hi
      have hi2 : i < rb.length + 1 := hi
      show (rb.data.set ((rb.start + (rb.length + 1) - 1) % rb.maxlen) v)[(rb.start + i) % c]? =
        (vs ++ [v])[(vs ++ [v]).length - (rb.length + 1) + i]?
      rw [hidx, hm, List.length_append, List.length_cons, List.length_nil]
      have hrhs : vs.length + 1 - (rb.length + 1) + i = i := by omega
      rw [hrhs]
      rcases Nat.lt_or_ge i rb.length with hcase | hcase
      · -- reading an old slot: untouched by the write
        have hne : (rb.start + rb.length) % c ≠ (rb.start + i) % c := by
          intro heq
          exact absurd (mod_add_cancel hlc (lt_trans hcase hlc) heq) (by omega)
        rw [List.getElem?_set_ne hne]
        have := hco i hcase
        rw [hlv] at this
        have hz : vs.length - vs.length + i = i := by omega
        rw [hz] at this
        rw [this, List.getElem?_append, if_pos (by omega)]
      · -- reading the freshly written slot
        have hieq : i = rb.length := by omega
        subst hieq
        rw [List.getElem?_set_self (by rw [hd]; exact Nat.mod_lt _ hc)]
        rw [hlv, List.getElem?_concat_length]
  · -- overwrite branch: the store is full, the oldest entry is evicted
    have hlec : rb.length ≤ c := by rw [hl]; omega
    have hleq : rb.length = rb.maxlen := by rw [hm]; omega
    have hvge : c ≤ vs.length := by
      by_contra hgt
      push_neg at hgt
      rw [hl, Nat.min_eq_left (le_of_lt hgt)] at hleq
      omega
    have hlc : rb.length = c := by omega
    have hsv : rb.start = vs.length % c := by
      rw [hse, if_neg (by omega)]
    refine ⟨{ rb with start := (rb.start + 1) % rb.maxlen
                      data := rb.data.set (((rb.start + 1) % rb.maxlen + rb.length - 1) % rb.maxlen) v },
            by unfold append; rw [if_neg hlt, if_pos hleq], ?_⟩
    have hs2lt : (rb.start + 1) % c < c := Nat.mod_lt _ hc
    have hwrite : ((rb.start + 1) % c + rb.length - 1) % c = rb.start := by
      rw [hlc]
      rcases Nat.lt_or_ge (rb.start + 1) c with h2 | h2
      · rw [Nat.mod_eq_of_lt h2]
        have h3 : rb.start + 1 + c - 1 = rb.start + c := by omega
        rw [h3, Nat.add_mod_right, Nat.mod_eq_of_lt hsl]
      · have h3 : rb.start + 1 = c := by omega
        rw [h3, Nat.mod_self]
        have h4 : 0 + c - 1 = c - 1 := by omega
        rw [h4, Nat.mod_eq_of_lt (by omega)]
        omega
    have hs2 : (rb.start + 1) % c = (vs.length + 1) % c := by
      rw [hsv, Nat.mod_add_mod]
    refine ⟨hm, by simp [List.length_set, hd], by rw [hm]; exact hs2lt, ?_, ?_, ?_⟩
    · show (rb.start + 1) % rb.maxlen =
        if (vs ++ [v]).length < c then 0 else (vs ++ [v]).length % c
      rw [hm, List.length_append, List.length_cons, List.length_nil, if_neg (by omega), hs2]
    · show rb.length = min (vs ++ [v]).length c
      rw [List.length_append, List.length_cons, List.length_nil]
      omega
    · intro i hi
      have hi2 : i < rb.length := hi
      show (rb.data.set (((rb.start + 1) % rb.maxlen + rb.length - 1) % rb.maxlen) v)[((rb.start + 1) % rb.maxlen + i) % c]? =
        (vs ++ [v])[(vs ++ [v]).length - rb.length + i]?
      rw [hm, hwrite, List.length_append, List.length_cons, List.length_nil]
      have hic : i < c := by omega
      rcases Nat.lt_or_ge i (c - 1) with hcase | hcase
      · -- old slot, shifted by one logical position
        have hpos : ((rb.start + 1) % c + i) % c = (rb.start + (i + 1)) % c := by
          rw [Nat.mod_add_mod]
          congr 1
          omega
        have hne : rb.start ≠ ((rb.start + 1) % c + i) % c := by
          rw [hpos]
          intro heq
          conv_lhs at heq => rw [← Nat.mod_eq_of_lt hsl]
          have h0 : rb.start % c = (rb.start + 0) % c := by rw [Nat.add_zero]
          rw [h0] at heq
          exact absurd (mod_add_cancel hc (by omega) heq) (by omega)
        rw [List.getElem?_set_ne hne, hpos]
        have := hco (i + 1) (by omega)
        rw [hlc] at this
        rw [this, List.getElem?_append, if_pos (by omega)]
        congr 1
        omega
      · -- the slot just overwritten with the new value
        have hieq : i = c - 1 := by omega
        subst hieq
        have hpos : ((rb.start + 1) % c + (c - 1)) % c = rb.start := by
          have h5 : (rb.start + 1) % c + (c - 1) = (rb.start + 1) % c + c - 1 := by omega
          have h6 := hwrite
          rw [hlc] at h6
          rw [h5]
          exact h6
        rw [hpos, List.getElem?_set_self (by rw [hd]; exact hsl)]
        have hrhs : vs.length + 1 - rb.length + (c - 1) = vs.length := by omega
        rw [hrhs, List.getElem?_concat_length]

theorem appendAll_reached {c : Nat} (hc : 0 < c) (z : α) (vs : List α) :
    ∃ rb, (RingBuffer.init c z).appendAll vs = some rb ∧ Reached c vs rb := by
  induction vs using List.reverseRecOn with
  | nil => exact ⟨_, rfl, reached_init hc z⟩
  | append_singleton ws w ih =>
    obtain ⟨rb, h1, h2⟩ := ih
    obtain ⟨rb2, h3, h4⟩ := append_step hc h2
    refine ⟨rb2, ?_, h4⟩
    rw [appendAll_concat, h1]
    exact h3

end RingBuffer

example : RingBuffer.appendAll (RingBuffer.init 2 (0 : ℚ)) [1, 2, 3] =
    some ⟨2, 1, 2, [3, 2]⟩ := by decide

example : (RingBuffer.init 3 (0 : ℚ)).appendAll [1, 2, 3, 4] =
    some ⟨3, 1, 3, [4, 2, 3]⟩ := by decide

example : (⟨2, 1, 2, [3, 2]⟩ : RingBuffer ℚ).getIdx 0 = some 2 := by decide

example : (⟨2, 1, 2, [3, 2]⟩ : RingBuffer ℚ).getIdx 2 = none := by decide

/-- C1: after any sequence of appends into a ring of capacity `c > 0`,
exactly the last `min vs.length c` appended values are retrievable at
logical indices `[0, min vs.length c)`, in append order, oldest first:
`get(i)` returns exactly the value passed to the append that produced the
entry currently at logical position `i`, and every larger index reads
nothing, regardless of how many evictions occurred. -/
theorem claim_C1_ring_wraparound_read (c : Nat) (hc : 0 < c) (vs : List ℚ)
    (rb : RingBuffer ℚ)
    (h : (RingBuffer.init c (0 : ℚ)).appendAll vs = some rb) :
    (∀ i : Nat, i < min vs.length c →
      rb.getIdx i = vs[vs.length - min vs.length c + i]?) ∧
    (∀ i : Nat, min vs.length c ≤ i → rb.getIdx i = none) := by
  obtain ⟨rb2, h2, hR⟩ := RingBuffer.appendAll_reached hc (0 : ℚ) vs
  rw [h] at h2
  injection h2 with h2
  subst h2
  obtain ⟨hm, hd, hsl, hse, hl, hco⟩ := hR
  constructor
  · intro i hi
    unfold RingBuffer.getIdx
    rw [if_neg (by push_neg; omega)]
    have ht : ((i : Int)).toNat = i := Int.toNat_natCast i
    rw [ht, hm]
    have := hco i (by omega)
    rw [hl] at this
    exact this
  · intro i hi
    unfold RingBuffer.getIdx
    rw [if_pos (by right; omega)]

/-- Witness for C1 at `c = 2`, appends `[1, 2, 3]`: logical index 0 reads
the value of the second append. -/
theorem claim_C1_ring_wraparound_read_witness :
    (⟨2, 1, 2, [3, 2]⟩ : RingBuffer ℚ).getIdx 0 =
      [(1 : ℚ), 2, 3][[(1 : ℚ), 2, 3].length - min [(1 : ℚ), 2, 3].length 2 + 0]? :=
  (claim_C1_ring_wraparound_read 2 (by decide) [1, 2, 3] ⟨2, 1, 2, [3, 2]⟩
    (by decide)).1 0 (by decide)

/-- C4: for every ring reachable by appends from construction with
capacity `c > 0`, one more append succeeds and the new length is
`min (previous_length + 1, capacity)`, which never exceeds the capacity. -/
theorem claim_C4_capacity_invariant (c : Nat) (hc : 0 < c) (vs : List ℚ) (v : ℚ)
    (rb : RingBuffer ℚ)
    (h : (RingBuffer.init c (0 : ℚ)).appendAll vs = some rb) :
    ∃ rb2, rb.append v = some rb2 ∧
      rb2.length = min (rb.length + 1) c ∧ rb2.length ≤ c := by
  obtain ⟨rb1, h1, hR⟩ := RingBuffer.appendAll_reached hc (0 : ℚ) vs
  rw [h] at h1
  injection h1 with h1
  subst h1
  obtain ⟨rb2, ha, hR2⟩ := RingBuffer.append_step hc hR
  refine ⟨rb2, ha, ?_, ?_⟩
  · have h2 := hR2.len_eq
    have h3 := hR.len_eq
    rw [List.length_append, List.length_cons, List.length_nil] at h2
    omega
  · have h2 := hR2.len_eq
    omega

/-- Witness for C4 at `c = 2` after appends `[5, 6]` (full ring). -/
theorem claim_C4_capacity_invariant_witness :
    ∃ rb2, (⟨2, 0, 2, [5, 6]⟩ : RingBuffer ℚ).append 7 = some rb2 ∧
      rb2.length = min ((⟨2, 0, 2, [5, 6]⟩ : RingBuffer ℚ).length + 1) 2 ∧
      rb2.length ≤ 2 :=
  claim_C4_capacity_invariant 2 (by decide) [5, 6] 7 ⟨2, 0, 2, [5, 6]⟩ (by decide)

/-- C10: for every ring reachable from construction (capacity `c > 0`) by
appends, `length` never exceeds `maxlen`, hence the defensive final branch
of `append` (which raises `RuntimeError`, embedded as `none`) is never
taken: one more append always returns normally. -/
theorem claim_C10_defensive_unreachable (c : Nat) (hc : 0 < c) (vs : List ℚ)
    (v : ℚ) (rb : RingBuffer ℚ)
    (h : (RingBuffer.init c (0 : ℚ)).appendAll vs = some rb) :
    rb.length ≤ rb.maxlen ∧ (rb.append v).isSome := by
  obtain ⟨rb1, h1, hR⟩ := RingBuffer.appendAll_reached hc (0 : ℚ) vs
  rw [h] at h1
  injection h1 with h1
  subst h1
  constructor
  · have h2 := hR.len_eq
    have h3 := hR.maxlen_eq
    omega
  · obtain ⟨rb2, ha, _⟩ := RingBuffer.append_step hc hR
    rw [ha]
    rfl

/-- Witness for C10 on the full ring reached by appending `[5, 6, 7]` into
capacity 2. -/
theorem claim_C10_defensive_unreachable_witness :
    (⟨2, 1, 2, [7, 6]⟩ : RingBuffer ℚ).length ≤ (⟨2, 1, 2, [7, 6]⟩ : RingBuffer ℚ).maxlen ∧
      ((⟨2, 1, 2, [7, 6]⟩ : RingBuffer ℚ).append 8).isSome :=
  claim_C10_defensive_unreachable 2 (by decide) [5, 6, 7] 8 ⟨2, 1, 2, [7, 6]⟩ (by decide)

/-- Counterexample to C7: in the code, `get_batch` performs no bound check
at all. On the ring reached by a single append into capacity 2 (so
`length = 1`), the out-of-range index 5 does not fail: the read succeeds
and returns the zero-initialized physical slot `(0 + 5) % 2 = 1`. -/
theorem claim_C7_counterexample :
    (RingBuffer.init 2 (0 : ℚ)).appendAll [7] = some ⟨2, 0, 1, [7, 0]⟩ ∧
    (⟨2, 0, 1, [7, 0]⟩ : RingBuffer ℚ).length = 1 ∧
    (⟨2, 0, 1, [7, 0]⟩ : RingBuffer ℚ).get_batch [5] = [some 0] := by decide

/-- C7 amended: `get(idx)` fails (raises, here `none`) exactly when `idx`
is outside `[0, length)`; `get_batch`, however, performs no bound check:
on every reachable ring it returns a value for every index, in-range or
not, reading physical slot `(start + idx) % capacity`. -/
theorem claim_C7_amended (c : Nat) (hc : 0 < c) (vs : List ℚ) (rb : RingBuffer ℚ)
    (h : (RingBuffer.init c (0 : ℚ)).appendAll vs = some rb) :
    (∀ idx : Int, rb.getIdx idx = none ↔ (idx < 0 ∨ (rb.length : Int) ≤ idx)) ∧
    (∀ idxs : List Nat, ∀ x ∈ rb.get_batch idxs, x.isSome) := by
  obtain ⟨rb1, h1, hR⟩ := RingBuffer.appendAll_reached hc (0 : ℚ) vs
  rw [h] at h1
  injection h1 with h1
  subst h1
  obtain ⟨hm, hd, hsl, hse, hl, hco⟩ := hR
  constructor
  · intro idx
    by_cases hcond : idx < 0 ∨ (rb.length : Int) ≤ idx
    · unfold RingBuffer.getIdx
      rw [if_pos hcond]
      simp [hcond]
    · unfold RingBuffer.getIdx
      rw [if_neg hcond]
      simp only [hcond, iff_false]
      intro hnone
      rw [List.getElem?_eq_none_iff] at hnone
      have hlt : (rb.start + idx.toNat) % rb.maxlen < rb.data.length := by
        rw [hd, hm]
        exact Nat.mod_lt _ hc
      omega
  · intro idxs x hx
    unfold RingBuffer.get_batch at hx
    rw [List.mem_map] at hx
    obtain ⟨i, _, rfl⟩ := hx
    rw [List.getElem?_eq_getElem (by rw [hd, hm]; exact Nat.mod_lt _ hc)]
    rfl

/-- Witness for C7 amended: on the ring with one entry, `get(5)` fails
because 5 is at or beyond the length. -/
theorem claim_C7_amended_witness :
    (⟨2, 0, 1, [7, 0]⟩ : RingBuffer ℚ).getIdx 5 = none ↔
      ((5 : Int) < 0 ∨ ((⟨2, 0, 1, [7, 0]⟩ : RingBuffer ℚ).length : Int) ≤ 5) :=
  (claim_C7_amended 2 (by decide) [7] ⟨2, 0, 1, [7, 0]⟩ (by decide)).1 5

theorem laEndIdx_ge {ne idx n : Nat} (hidx : idx < ne) (hn : 1 ≤ n) :
    idx ≤ laEndIdx ne idx n ∧ laEndIdx ne idx n < ne := by
  unfold laEndIdx
  omega

theorem laDones_length (dones : List Bool) (ne idx n : Nat) :
    (laDones dones ne idx n).length = laEndIdx ne idx n + 1 - idx := by
  unfold laDones laIdxs
  rw [List.length_map, List.length_range']

theorem laDones_getElem (dones : List Bool) (ne idx n : Nat) (j : Nat)
    (hj : j < (laDones dones ne idx n).length) :
    (laDones dones ne idx n)[j] = dones.getD (idx + j) false := by
  unfold laDones laIdxs at hj ⊢
  rw [List.getElem_map, List.getElem_range']
  simp

theorem epEndIdx_bounds (dones : List Bool) {ne idx n : Nat}
    (hidx : idx < ne) (hn : 1 ≤ n) :
    idx ≤ epEndIdx dones ne idx n ∧ epEndIdx dones ne idx n ≤ laEndIdx ne idx n := by
  cases h : (laDones dones ne idx n).findIdx? (fun d => d) with
  | none =>
    have he : epEndIdx dones ne idx n = laEndIdx ne idx n := by
      unfold epEndIdx
      rw [h]
    rw [he]
    exact ⟨(laEndIdx_ge hidx hn).1, le_refl _⟩
  | some j =>
    have he : epEndIdx dones ne idx n = idx + j := by
      unfold epEndIdx
      rw [h]
    rw [List.findIdx?_eq_some_iff_findIdx_eq] at h
    obtain ⟨hj, _⟩ := h
    rw [laDones_length] at hj
    have h1 := (laEndIdx_ge hidx hn).1
    rw [he]
    omega

/-- C3: for every sampled `idx` in `[0, num_entries)` and horizon `n ≥ 1`,
the candidate window end is `min(idx + n, num_entries) - 1`, every
gathered window index stays below `num_entries`, and the effective
lookahead length satisfies `1 ≤ td_len ≤ min(n, num_entries - idx)`; in
particular `n = 1` forces `td_len = 1`. -/
theorem claim_C3_lookahead_bounds (dones : List Bool) (rews : List ℚ)
    (ne idx n : Nat) (gamma : ℚ) (hidx : idx < ne) (hn : 1 ≤ n) :
    laEndIdx ne idx n = min (idx + n) ne - 1 ∧
    (∀ i ∈ laIdxs ne idx n, i < ne) ∧
    1 ≤ (lookaheadStep dones rews ne idx n gamma).td_len ∧
    (lookaheadStep dones rews ne idx n gamma).td_len ≤ min n (ne - idx) ∧
    (n = 1 → (lookaheadStep dones rews ne idx n gamma).td_len = 1) := by
  have ht : (lookaheadStep dones rews ne idx n gamma).td_len =
      epEndIdx dones ne idx n - idx + 1 := rfl
  have hb := epEndIdx_bounds dones hidx hn
  have hla := laEndIdx_ge hidx hn
  have hle : laEndIdx ne idx n = min (idx + n) ne - 1 := rfl
  refine ⟨hle, ?_, ?_, ?_, ?_⟩
  · intro i hi
    unfold laIdxs at hi
    rw [List.mem_range'] at hi
    obtain ⟨k, hk, rfl⟩ := hi
    have h2 : laEndIdx ne idx n < ne := hla.2
    omega
  · omega
  · have h2 : laEndIdx ne idx n = min (idx + n) ne - 1 := rfl
    omega
  · intro hn1
    subst hn1
    have h2 : laEndIdx ne idx 1 = min (idx + 1) ne - 1 := rfl
    omega

/-- Witness for C3 at the spec's 5-entry store, `idx = 0`, `n = 4`. -/
theorem claim_C3_lookahead_bounds_witness :
    1 ≤ (lookaheadStep [false, false, true, false, false] [10, 20, 30, 40, 50]
      5 0 4 1).td_len :=
  (claim_C3_lookahead_bounds [false, false, true, false, false]
    [10, 20, 30, 40, 50] 5 0 4 1 (by decide) (by decide)).2.2.1

/-- C2: the lookahead trim flag stored as the output terminal-flag field
`dones1` is true exactly when some terminal flag is set strictly before
the window end (equivalently, when the episode cut produced by the
first-set-flag scan differs from `la_end_idx`); and on the spec's 5-entry
store with flags `[0,0,1,0,0]`, `idx = 0` with `n = 4` yields
`td_len = 3` with the flag true, while `n = 2` yields `td_len = 2` with
the flag false. -/
theorem claim_C2_trim_polarity :
    (∀ (dones : List Bool) (rews : List ℚ) (ne idx n : Nat) (gamma : ℚ),
      idx < ne → 1 ≤ n →
      ((lookaheadStep dones rews ne idx n gamma).dones1 = true ↔
        ∃ j, idx + j < laEndIdx ne idx n ∧ dones.getD (idx + j) false = true)) ∧
    (lookaheadStep [false, false, true, false, false] [0, 0, 0, 0, 0] 5 0 4 0).td_len = 3 ∧
    (lookaheadStep [false, false, true, false, false] [0, 0, 0, 0, 0] 5 0 4 0).dones1 = true ∧
    (lookaheadStep [false, false, true, false, false] [0, 0, 0, 0, 0] 5 0 2 0).td_len = 2 ∧
    (lookaheadStep [false, false, true, false, false] [0, 0, 0, 0, 0] 5 0 2 0).dones1 = false := by
  refine ⟨?_, by decide, by decide, by decide, by decide⟩
  intro dones rews ne idx n gamma hidx hn
  have hd1 : (lookaheadStep dones rews ne idx n gamma).dones1 =
      (epEndIdx dones ne idx n != laEndIdx ne idx n) := rfl
  rw [hd1, bne_iff_ne]
  have hla := laEndIdx_ge hidx hn
  cases h : (laDones dones ne idx n).findIdx? (fun d => d) with
  | none =>
    have he : epEndIdx dones ne idx n = laEndIdx ne idx n := by
      unfold epEndIdx
      rw [h]
    rw [he]
    simp only [ne_eq, not_true_eq_false, false_iff, not_exists]
    rw [List.findIdx?_eq_none_iff] at h
    intro j hj
    obtain ⟨hjlt, htrue⟩ := hj
    have hjlen : j < (laDones dones ne idx n).length := by
      rw [laDones_length]
      omega
    have hmem : (laDones dones ne idx n)[j] ∈ laDones dones ne idx n :=
      List.getElem_mem hjlen
    have hfalse := h _ hmem
    rw [laDones_getElem dones ne idx n j hjlen, htrue] at hfalse
    exact Bool.noConfusion hfalse
  | some j =>
    have he : epEndIdx dones ne idx n = idx + j := by
      unfold epEndIdx
      rw [h]
    rw [he]
    rw [List.findIdx?_eq_some_iff_findIdx_eq] at h
    obtain ⟨hjlen, hfind⟩ := h
    have hlen := laDones_length dones ne idx n
    constructor
    · intro hne
      have hjlt : List.findIdx (fun d => d) (laDones dones ne idx n) <
          (laDones dones ne idx n).length := by
        rw [hfind]
        exact hjlen
      have hp := @List.findIdx_getElem _ (fun d => d) (laDones dones ne idx n) hjlt
      simp only [hfind] at hp
      rw [laDones_getElem dones ne idx n j hjlen] at hp
      exact ⟨j, by omega, hp⟩
    · intro hex
      obtain ⟨j2, hj2, htrue⟩ := hex
      have hj2len : j2 < (laDones dones ne idx n).length := by omega
      have hle2 : ¬ (j2 < List.findIdx (fun d => d) (laDones dones ne idx n)) := by
        intro hlt
        have hfalse := List.not_of_lt_findIdx hlt
        rw [laDones_getElem dones ne idx n j2 hj2len, htrue] at hfalse
        exact Bool.noConfusion hfalse
      rw [hfind] at hle2
      omega

/-- Witness for C2 at `dones = [false, true]`, `idx = 0`, `n = 2`. -/
theorem claim_C2_trim_polarity_witness :
    (lookaheadStep [false, true] [1, 2] 2 0 2 0).dones1 = true ↔
      ∃ j, 0 + j < laEndIdx 2 0 2 ∧ [false, true].getD (0 + j) false = true :=
  claim_C2_trim_polarity.1 [false, true] [1, 2] 2 0 2 0 (by decide) (by decide)

theorem discountFirst_one (l : List ℚ) : discountFirst l 1 = l.sum := by
  induction l with
  | nil => simp [discountFirst]
  | cons a l ih => simp [discountFirst, ih]

theorem laIdxs_cons {ne idx n : Nat} (hidx : idx < ne) (hn : 1 ≤ n) :
    laIdxs ne idx n = idx :: List.range' (idx + 1) (laEndIdx ne idx n - idx) := by
  unfold laIdxs
  have h1 := (laEndIdx_ge hidx hn).1
  have h2 : laEndIdx ne idx n + 1 - idx = (laEndIdx ne idx n - idx) + 1 := by omega
  rw [h2, List.range'_succ]

/-- C6: degenerate discount factors are exact: with `gamma = 0` the
lookahead return is exactly the first reward of the window, and with
`gamma = 1` it is exactly the unweighted sum of the first `td_len`
window rewards. -/
theorem claim_C6_discount_degenerate (dones : List Bool) (rews : List ℚ)
    (ne idx n : Nat) (hidx : idx < ne) (hn : 1 ≤ n) :
    (lookaheadStep dones rews ne idx n 0).rews = rews.getD idx 0 ∧
    (lookaheadStep dones rews ne idx n 1).rews =
      (((laIdxs ne idx n).map (fun i => rews.getD i 0)).take
        (lookaheadStep dones rews ne idx n 1).td_len).sum := by
  constructor
  · have hr : (lookaheadStep dones rews ne idx n 0).rews = discountFirst
        (((laIdxs ne idx n).map (fun i => rews.getD i 0)).take
          (epEndIdx dones ne idx n - idx + 1)) 0 := rfl
    rw [hr, laIdxs_cons hidx hn, List.map_cons, List.take_succ_cons]
    show rews.getD idx 0 + 0 * discountFirst _ 0 = rews.getD idx 0
    ring
  · have hr : (lookaheadStep dones rews ne idx n 1).rews = discountFirst
        (((laIdxs ne idx n).map (fun i => rews.getD i 0)).take
          (epEndIdx dones ne idx n - idx + 1)) 1 := rfl
    rw [hr, discountFirst_one]
    rfl

/-- Witness for C6 on the 5-entry store: with `gamma = 0` the return at
`idx = 1`, `n = 3` equals the reward stored at index 1. -/
theorem claim_C6_discount_degenerate_witness :
    (lookaheadStep [false, false, true, false, false] [10, 20, 30, 40, 50]
      5 1 3 0).rews = [(10 : ℚ), 20, 30, 40, 50].getD 1 0 :=
  (claim_C6_discount_degenerate [false, false, true, false, false]
    [10, 20, 30, 40, 50] 5 1 3 (by decide) (by decide)).1

theorem appendFields_ok {α : Type} (tr : List (String × NpVal α)) :
    ∀ (bufs bufs2 : List (String × RingBuffer α)),
    appendFields tr bufs = (bufs2, none) →
    List.Forall₂ (fun p q => p.1 = q.1 ∧
      ∃ v, tr.lookup p.1 = some (NpVal.nd v) ∧ p.2.append v = some q.2) bufs bufs2 := by
  intro bufs
  induction bufs with
  | nil =>
    intro bufs2 h
    unfold appendFields at h
    injection h with h1 h2
    subst h1
    exact List.Forall₂.nil
  | cons p rest ih =>
    intro bufs2 h
    obtain ⟨k, r⟩ := p
    unfold appendFields at h
    cases hlk : tr.lookup k with
    | none =>
      simp only [hlk] at h
      injection h with h1 h2
      exact Option.noConfusion h2
    | some val =>
      cases val with
      | other =>
        simp only [hlk] at h
        injection h with h1 h2
        exact Option.noConfusion h2
      | nd v =>
        simp only [hlk] at h
        cases ha : r.append v with
        | none =>
          simp only [ha] at h
          injection h with h1 h2
          exact Option.noConfusion h2
        | some r2 =>
          simp only [ha] at h
          rcases hres : appendFields tr rest with ⟨rest2, e⟩
          simp only [hres] at h
          injection h with h1 h2
          subst h1
          subst h2
          exact List.Forall₂.cons ⟨rfl, v, hlk, ha⟩ (ih rest2 hres)

theorem appendFields_meta {α : Type} (tr : List (String × NpVal α)) :
    ∀ (bufs bufs2 : List (String × RingBuffer α)),
    appendFields tr bufs = (bufs2, none) →
    ∀ (m s l : Nat),
    (∀ p ∈ bufs, p.2.maxlen = m ∧ p.2.start = s ∧ p.2.length = l) →
    ∀ p ∈ bufs2, p.2.maxlen = m ∧
      p.2.start = (if l < m then s else (s + 1) % m) ∧
      p.2.length = (if l < m then l + 1 else l) := by
  intro bufs
  induction bufs with
  | nil =>
    intro bufs2 h m s l hu
    unfold appendFields at h
    injection h with h1 h2
    subst h1
    intro p hp
    exact absurd hp (List.not_mem_nil p)
  | cons p0 rest ih =>
    intro bufs2 h m s l hu
    obtain ⟨k, r⟩ := p0
    unfold appendFields at h
    cases hlk : tr.lookup k with
    | none =>
      simp only [hlk] at h
      injection h with h1 h2
      exact Option.noConfusion h2
    | some val =>
      cases val with
      | other =>
        simp only [hlk] at h
        injection h with h1 h2
        exact Option.noConfusion h2
      | nd v =>
        simp only [hlk] at h
        cases ha : r.append v with
        | none =>
          simp only [ha] at h
          injection h with h1 h2
          exact Option.noConfusion h2
        | some r2 =>
          simp only [ha] at h
          rcases hres : appendFields tr rest with ⟨rest2, e⟩
          simp only [hres] at h
          injection h with h1 h2
          subst h1
          subst h2
          have hr := hu (k, r) (List.mem_cons_self _ _)
          have hrm : r.maxlen = m := hr.1
          have hrs : r.start = s := hr.2.1
          have hrl : r.length = l := hr.2.2
          have hr2 : r2.maxlen = m ∧
              r2.start = (if l < m then s else (s + 1) % m) ∧
              r2.length = (if l < m then l + 1 else l) := by
            unfold RingBuffer.append at ha
            by_cases hlt : r.length < r.maxlen
            · rw [if_pos hlt] at ha
              injection ha with ha
              subst ha
              have hltm : l < m := by rw [← hrl, ← hrm]; exact hlt
              dsimp only
              rw [if_pos hltm, if_pos hltm, hrl]
              exact ⟨hrm, hrs, rfl⟩
            · by_cases heq : r.length = r.maxlen
              · rw [if_neg hlt, if_pos heq] at ha
                injection ha with ha
                subst ha
                have hge : ¬ l < m := by rw [← hrl, ← hrm]; exact hlt
                dsimp only
                rw [if_neg hge, if_neg hge, hrs, hrm]
                exact ⟨rfl, rfl, hrl⟩
              · rw [if_neg hlt, if_neg heq] at ha
                exact Option.noConfusion ha
          intro p hp
          rcases List.mem_cons.mp hp with hp1 | hp1
          · subst hp1
            exact hr2
          · refine ih rest2 hres m s l ?_ p hp1
            intro q hq
            exact hu q (List.mem_cons_of_mem _ hq)

theorem append_ok_dest {α : Type} {rb rb2 : ReplayBuffer α}
    {tr : List (String × NpVal α)}
    (h : rb.append tr = AppendResult.ok rb2) :
    rb2.capacity = rb.capacity ∧
    appendFields tr rb.ring_buffers = (rb2.ring_buffers, none) := by
  unfold ReplayBuffer.append at h
  by_cases hkeys :
      (rb.ring_buffers.map Prod.fst).toFinset = (tr.map Prod.fst).toFinset
  · rw [if_pos hkeys] at h
    rcases hres : appendFields tr rb.ring_buffers with ⟨bufs, e⟩
    simp only [hres] at h
    cases e with
    | none =>
      injection h with h
      subst h
      exact ⟨rfl, rfl⟩
    | some err =>
      cases err with
      | keyErr => exact AppendResult.noConfusion h
      | typeErr k => exact AppendResult.noConfusion h
      | runtimeErr => exact AppendResult.noConfusion h
  · rw [if_neg hkeys] at h
    exact AppendResult.noConfusion h

theorem appendAllOk_uniform {α : Type} :
    ∀ (ts : List (List (String × NpVal α))) (rb rb2 : ReplayBuffer α),
    rb.appendAllOk ts = some rb2 →
    ∀ m s l : Nat,
    (∀ p ∈ rb.ring_buffers, p.2.maxlen = m ∧ p.2.start = s ∧ p.2.length = l) →
    ∃ m2 s2 l2, ∀ p ∈ rb2.ring_buffers,
      p.2.maxlen = m2 ∧ p.2.start = s2 ∧ p.2.length = l2 := by
  intro ts
  induction ts with
  | nil =>
    intro rb rb2 h m s l hu
    unfold ReplayBuffer.appendAllOk at h
    injection h with h
    subst h
    exact ⟨m, s, l, hu⟩
  | cons t ts ih =>
    intro rb rb2 h m s l hu
    unfold ReplayBuffer.appendAllOk at h
    cases ha : rb.append t with
    | ok rbm =>
      rw [ha] at h
      obtain ⟨_, hfields⟩ := append_ok_dest ha
      have hu2 := appendFields_meta t rb.ring_buffers rbm.ring_buffers hfields m s l hu
      exact ih rbm rb2 h m (if l < m then s else (s + 1) % m)
        (if l < m then l + 1 else l) hu2
    | schemaMismatch r0 =>
      rw [ha] at h
      exact Option.noConfusion h
    | keyError r0 =>
      rw [ha] at h
      exact Option.noConfusion h
    | typeError k r0 =>
      rw [ha] at h
      exact Option.noConfusion h
    | runtimeError r0 =>
      rw [ha] at h
      exact Option.noConfusion h

/-- C5: after any sequence of successful `ReplayBuffer.append` calls from
construction, every field's ring reports the same `length` and the same
physical `start` offset. -/
theorem claim_C5_field_sync (c : Nat) (names : List String)
    (ts : List (List (String × NpVal ℚ))) (rb : ReplayBuffer ℚ)
    (h : (ReplayBuffer.init c names (0 : ℚ)).appendAllOk ts = some rb) :
    ∀ p ∈ rb.ring_buffers, ∀ q ∈ rb.ring_buffers,
      p.2.length = q.2.length ∧ p.2.start = q.2.start := by
  have hu0 : ∀ p ∈ (ReplayBuffer.init c names (0 : ℚ)).ring_buffers,
      p.2.maxlen = c ∧ p.2.start = 0 ∧ p.2.length = 0 := by
    intro p hp
    unfold ReplayBuffer.init at hp
    rw [List.mem_map] at hp
    obtain ⟨nm, _, rfl⟩ := hp
    exact ⟨rfl, rfl, rfl⟩
  obtain ⟨m2, s2, l2, hu⟩ := appendAllOk_uniform ts _ rb h c 0 0 hu0
  intro p hp q hq
  obtain ⟨_, hps, hpl⟩ := hu p hp
  obtain ⟨_, hqs, hql⟩ := hu q hq
  rw [hps, hpl, hqs, hql]
  exact ⟨rfl, rfl⟩

/-- Witness for C5: capacity-2 store with fields `obs0`, `rews` after one
successful append; both rings agree on `length` and `start`. -/
theorem claim_C5_field_sync_witness :
    (⟨2, 0, 1, [1, 0]⟩ : RingBuffer ℚ).length = (⟨2, 0, 1, [5, 0]⟩ : RingBuffer ℚ).length ∧
    (⟨2, 0, 1, [1, 0]⟩ : RingBuffer ℚ).start = (⟨2, 0, 1, [5, 0]⟩ : RingBuffer ℚ).start :=
  claim_C5_field_sync 2 ["obs0", "rews"]
    [[("obs0", NpVal.nd 1), ("rews", NpVal.nd 5)]]
    ⟨2, [("obs0", ⟨2, 0, 1, [1, 0]⟩), ("rews", ⟨2, 0, 1, [5, 0]⟩)]⟩
    (by decide)
    ("obs0", ⟨2, 0, 1, [1, 0]⟩) (by decide)
    ("rews", ⟨2, 0, 1, [5, 0]⟩) (by decide)

/-- Counterexample to C9: `ReplayBuffer.append` is not all-or-nothing. On
a fresh 2-field store (fields `"a"`, `"b"`, capacity 2), a transition
whose `"a"` value is an array but whose `"b"` value is not raises
`TypeError("b")` — yet the `"a"` ring has already been appended
(`length` went from 0 to 1), while `"b"` is untouched. -/
theorem claim_C9_counterexample :
    ReplayBuffer.append (ReplayBuffer.init 2 ["a", "b"] (0 : ℚ))
      [("a", NpVal.nd 1), ("b", NpVal.other)] =
      AppendResult.typeError "b"
        ⟨2, [("a", ⟨2, 0, 1, [1, 0]⟩), ("b", ⟨2, 0, 0, [0, 0]⟩)]⟩ ∧
    (ReplayBuffer.init 2 ["a", "b"] (0 : ℚ)).ring_buffers.lookup "a" =
      some ⟨2, 0, 0, [0, 0]⟩ ∧
    (⟨2, 0, 1, [1, 0]⟩ : RingBuffer ℚ).length ≠
      (⟨2, 0, 0, [0, 0]⟩ : RingBuffer ℚ).length := by decide

/-- C9 amended: the schema check is all-or-nothing — a key-set mismatch
fails with `SchemaMismatch` before any ring is touched, and a successful
append appends every field's value to its ring exactly once; but a value
rejected mid-append (`TypeError`) leaves the rings of fields iterated
before the offending one already mutated. -/
theorem claim_C9_amended (rb : ReplayBuffer ℚ) (tr : List (String × NpVal ℚ)) :
    ((rb.ring_buffers.map Prod.fst).toFinset ≠ (tr.map Prod.fst).toFinset →
      rb.append tr = AppendResult.schemaMismatch rb) ∧
    (∀ rb2, rb.append tr = AppendResult.ok rb2 →
      rb2.capacity = rb.capacity ∧
      List.Forall₂ (fun p q => p.1 = q.1 ∧
        ∃ v, tr.lookup p.1 = some (NpVal.nd v) ∧ p.2.append v = some q.2)
        rb.ring_buffers rb2.ring_buffers) := by
  constructor
  · intro hne
    unfold ReplayBuffer.append
    rw [if_neg hne]
  · intro rb2 h
    obtain ⟨hcap, hfields⟩ := append_ok_dest h
    exact ⟨hcap, appendFields_ok tr rb.ring_buffers rb2.ring_buffers hfields⟩

/-- Witness for C9 amended: a transition with no fields at all against a
one-field schema fails the key-set check and leaves the store unchanged. -/
theorem claim_C9_amended_witness :
    ReplayBuffer.append (ReplayBuffer.init 2 ["a"] (0 : ℚ)) [] =
      AppendResult.schemaMismatch (ReplayBuffer.init 2 ["a"] (0 : ℚ)) :=
  (claim_C9_amended (ReplayBuffer.init 2 ["a"] (0 : ℚ)) []).1 (by decide)

/-- Counterexample to C8: `latest_entry_idx` does not return the logical
index `num_entries - 1` once the buffer has wrapped. After 4 appends into
capacity 3 the `"obs0"` ring is `start = 1, length = 3`, so
`latest_entry_idx = (1 + 3 - 1) % 3 = 0`, while `num_entries - 1 = 2`. -/
theorem claim_C8_counterexample :
    (RingBuffer.init 3 (0 : ℚ)).appendAll [1, 2, 3, 4] = some ⟨3, 1, 3, [4, 2, 3]⟩ ∧
    ReplayBuffer.latest_entry_idx ⟨3, [("obs0", ⟨3, 1, 3, [4, 2, 3]⟩)]⟩ = some 0 ∧
    ReplayBuffer.num_entries ⟨3, [("obs0", ⟨3, 1, 3, [4, 2, 3]⟩)]⟩ = some 3 ∧
    (0 : Nat) ≠ 3 - 1 := by decide

/-- C8 amended: for a non-empty store, `latest_entry_idx` returns the
PHYSICAL slot of the most recent write, `(start + length - 1) % capacity`
= `(total_appends - 1) % capacity`; this equals the logical index
`num_entries - 1` only while the buffer has not yet wrapped
(`total appends ≤ capacity`). -/
theorem claim_C8_amended (c : Nat) (hc : 0 < c) (vs : List ℚ)
    (r : RingBuffer ℚ) (RB : ReplayBuffer ℚ)
    (hlk : RB.ring_buffers.lookup "obs0" = some r)
    (h : (RingBuffer.init c (0 : ℚ)).appendAll vs = some r)
    (hne : 1 ≤ vs.length) :
    RB.latest_entry_idx = some ((vs.length - 1) % c) ∧
    (vs.length ≤ c → RB.latest_entry_idx = some (vs.length - 1)) := by
  obtain ⟨rb1, h1, hR⟩ := RingBuffer.appendAll_reached hc (0 : ℚ) vs
  rw [h] at h1
  injection h1 with h1
  subst h1
  obtain ⟨hm, hd, hsl, hse, hl, hco⟩ := hR
  have hlen1 : 1 ≤ r.length := by rw [hl]; omega
  have hkey : (r.start + r.length - 1) % c = (vs.length - 1) % c := by
    by_cases hc2 : vs.length < c
    · rw [hse, if_pos hc2, hl]
      have hmin : min vs.length c = vs.length := by omega
      rw [hmin, Nat.zero_add]
    · push_neg at hc2
      rw [hse, if_neg (by omega), hl, Nat.min_eq_right hc2]
      have h5 : vs.length % c + c - 1 = vs.length % c + (c - 1) := by omega
      rw [h5, Nat.mod_add_mod]
      have h6 : vs.length + (c - 1) = (vs.length - 1) + c := by omega
      rw [h6, Nat.add_mod_right]
  have hmain : RB.latest_entry_idx = some ((vs.length - 1) % c) := by
    unfold ReplayBuffer.latest_entry_idx
    rw [hlk]
    show some ((((r.start : Int) + r.length - 1) % (r.maxlen : Int)).toNat) =
      some ((vs.length - 1) % c)
    congr 1
    have h7 : ((r.start : Int) + r.length - 1) = ((r.start + r.length - 1 : Nat) : Int) := by
      omega
    rw [h7, hm, ← Int.natCast_mod, Int.toNat_natCast]
    exact hkey
  refine ⟨hmain, ?_⟩
  intro hle
  rw [hmain, Nat.mod_eq_of_lt (by omega)]

/-- Witness for C8 amended: two appends into capacity 3 (no wrap yet):
the latest index is `(2 - 1) % 3 = 1 = num_entries - 1`. -/
theorem claim_C8_amended_witness :
    ReplayBuffer.latest_entry_idx ⟨3, [("obs0", ⟨3, 0, 2, [1, 2, 0]⟩)]⟩ =
      some (([(1 : ℚ), 2].length - 1) % 3) :=
  (claim_C8_amended 3 (by decide) [1, 2] ⟨3, 0, 2, [1, 2, 0]⟩
    ⟨3, [("obs0", ⟨3, 0, 2, [1, 2, 0]⟩)]⟩ (by decide) (by decide) (by decide)).1
